import Mathlib

/-!
Verification development for the `loopy/statistics.py` static cost-analysis
module.  Each definition below is a shallow embedding of a function or class
from that source file (line numbers refer to `src/loopy/statistics.py`);
theorems settle the specification's claims about those functions.

External collaborators (the isl geometry backend, pymbolic expression
primitives, the kernel IR) are modelled abstractly: their answers are taken
as oracle parameters, while the control flow of the statistics module itself
is translated faithfully.
-/

namespace Loopy

/-! ## ToCountMap (statistics.py lines 55-96)

`ToCountMap` wraps a Python dict mapping classification keys to counts.
A Python dict is modelled as a function `κ → Option Int`: `none` means the
key is absent, `some v` means the key is present with value `v`.  Dict
equality (same key set, same values) is then plain function equality.
Count values are modelled as `Int` (evaluated counts / polynomials). -/

def ToCountMap (κ : Type) : Type := κ → Option Int

/-- The empty map, `ToCountMap()` with the default `{}` dict. -/
def ToCountMap.empty {κ : Type} : ToCountMap κ := fun _ => none

/-- `__add__` (lines 63-67): copy `self.dict`, then for every key of
`other.dict` store `self.dict.get(k, 0) + v`. -/
def ToCountMap.add {κ : Type} (a b : ToCountMap κ) : ToCountMap κ :=
  fun k =>
    match b k with
    | none => a k
    | some v => some ((a k).getD 0 + v)

/-- `__getitem__` (lines 89-93): value at the key, defaulting to the zero
polynomial when the key is absent. -/
def ToCountMap.get {κ : Type} (a : ToCountMap κ) (k : κ) : Int :=
  (a k).getD 0

/-- A one-entry map `ToCountMap({k: v})`. -/
def ToCountMap.single {κ : Type} [DecidableEq κ] (k : κ) (v : Int) : ToCountMap κ :=
  fun k' => if k' = k then some v else none

/-- Scaling by a polynomial, the `isl.PwQPolynomial` branch of `__mul__`
(lines 78-81): same key set, every value multiplied. -/
def ToCountMap.scale {κ : Type} (a : ToCountMap κ) (p : Int) : ToCountMap κ :=
  fun k => (a k).map (· * p)

/-- The dynamic type of the `other` operand reaching `__mul__`:
an `isl.PwQPolynomial`, a plain Python `int`, or anything else. -/
inductive PyNum : Type
  | qpoly (p : Int)
  | pyInt (n : Int)
  | pyOther
deriving DecidableEq

/-- `__mul__` (lines 77-87): only the `isinstance(other, isl.PwQPolynomial)`
branch succeeds; every other operand type raises `ValueError` (modelled as
`none`). -/
def ToCountMap.mulPy {κ : Type} (a : ToCountMap κ) : PyNum → Option (ToCountMap κ)
  | .qpoly p => some (a.scale p)
  | .pyInt _ => none
  | .pyOther => none

/-- Python's builtin `sum` over a list of `ToCountMap`s: `sum([])` is the
int `0`, and `0 + m` goes through `__radd__` (lines 69-75), which returns
`m` itself; subsequent additions use `__add__`. -/
def pySum {κ : Type} : List (ToCountMap κ) → ToCountMap κ
  | [] => ToCountMap.empty
  | m :: ms => ms.foldl ToCountMap.add m

/-! ### Basic lemmas about the dict model -/

theorem ToCountMap.get_add {κ : Type} (a b : ToCountMap κ) (k : κ) :
    (a.add b).get k = a.get k + b.get k := by
  unfold ToCountMap.add ToCountMap.get
  cases h : b k with
  | none => simp [h]
  | some v => simp [h]

theorem ToCountMap.isSome_add {κ : Type} (a b : ToCountMap κ) (k : κ) :
    ((a.add b) k).isSome = ((a k).isSome || (b k).isSome) := by
  unfold ToCountMap.add
  cases h : b k with
  | none => simp
  | some v => simp

theorem ToCountMap.eq_of_parts {κ : Type} (a b : ToCountMap κ)
    (hs : ∀ k, (a k).isSome = (b k).isSome)
    (hg : ∀ k, a.get k = b.get k) : a = b := by
  funext k
  have h1 := hs k
  have h2 := hg k
  unfold ToCountMap.get at h2
  cases ha : a k with
  | none =>
      cases hb : b k with
      | none => rfl
      | some v => rw [ha, hb] at h1; simp at h1
  | some v =>
      cases hb : b k with
      | none => rw [ha, hb] at h1; simp at h1
      | some w => rw [ha, hb] at h2; simp at h2; rw [h2]

theorem ToCountMap.get_single {κ : Type} [DecidableEq κ] (k k' : κ) (v : Int) :
    (ToCountMap.single k v).get k' = if k' = k then v else 0 := by
  unfold ToCountMap.single ToCountMap.get
  by_cases h : k' = k <;> simp [h]

theorem ToCountMap.isSome_single {κ : Type} [DecidableEq κ] (k k' : κ) (v : Int) :
    ((ToCountMap.single k v) k').isSome = (k' = k : Bool) := by
  unfold ToCountMap.single
  by_cases h : k' = k <;> simp [h]

theorem ToCountMap.get_scale {κ : Type} (a : ToCountMap κ) (p : Int) (k : κ) :
    (a.scale p).get k = a.get k * p := by
  unfold ToCountMap.scale ToCountMap.get
  cases h : a k with
  | none => simp [h]
  | some v => simp [h]

/-- C8 claim theorem (see below) needs commutativity etc. of `add`. -/
theorem ToCountMap.add_comm' {κ : Type} (a b : ToCountMap κ) :
    a.add b = b.add a := by
  funext k
  unfold ToCountMap.add
  cases ha : a k <;> cases hb : b k <;> simp [Int.add_comm]

theorem ToCountMap.add_assoc' {κ : Type} (a b c : ToCountMap κ) :
    (a.add b).add c = a.add (b.add c) := by
  funext k
  unfold ToCountMap.add
  cases ha : a k <;> cases hb : b k <;> cases hc : c k <;>
    simp [ha, Int.add_assoc]

theorem ToCountMap.add_empty {κ : Type} (a : ToCountMap κ) :
    a.add ToCountMap.empty = a := by
  funext k
  unfold ToCountMap.add ToCountMap.empty
  rfl

theorem ToCountMap.get_pySum {κ : Type} (l : List (ToCountMap κ)) (k : κ) :
    (pySum l).get k = (l.map (fun m => m.get k)).sum := by
  cases l with
  | nil => simp [pySum, ToCountMap.get, ToCountMap.empty]
  | cons m ms =>
      simp only [pySum, List.map_cons, List.sum_cons]
      induction ms generalizing m with
      | nil => simp
      | cons x xs ih =>
          simp only [List.foldl_cons, List.map_cons, List.sum_cons]
          rw [ih (m.add x), ToCountMap.get_add]
          ring

theorem ToCountMap.isSome_pySum {κ : Type} (l : List (ToCountMap κ)) (k : κ) :
    ((pySum l) k).isSome = l.any (fun m => (m k).isSome) := by
  cases l with
  | nil => simp [pySum, ToCountMap.empty]
  | cons m ms =>
      simp only [pySum, List.any_cons]
      induction ms generalizing m with
      | nil => simp
      | cons x xs ih =>
          simp only [List.foldl_cons, List.any_cons]
          rw [ih (m.add x), ToCountMap.isSome_add]
          simp [Bool.or_assoc]

/-! ## Claim C8: CountMap addition is commutative, associative, zero-neutral -/

/-- C8: `ToCountMap.__add__` is commutative and associative as a map from
dicts to dicts (resulting dicts equal as key-to-value mappings), and adding
the empty (zero) map to any map `a` yields a map equal to `a`. -/
theorem c8_add_comm_assoc_zero {κ : Type} (a b c : ToCountMap κ) :
    a.add b = b.add a ∧
    (a.add b).add c = a.add (b.add c) ∧
    a.add ToCountMap.empty = a :=
  ⟨ToCountMap.add_comm' a b, ToCountMap.add_assoc' a b c, ToCountMap.add_empty a⟩

/-! ## Claim C7: scaling a CountMap -/

/-- C7 counterexample: the claim says multiplying a `ToCountMap` by the plain
numeric scalar `-1` succeeds and scales every value.  In the code
(lines 77-87) `__mul__` accepts only `isl.PwQPolynomial` operands and raises
`ValueError` for a plain `int`; at the concrete map `{"k": 2}` and scalar
`-1` the result is the error outcome, not a scaled map. -/
theorem c7_counterexample :
    (ToCountMap.single "k" 2).mulPy (PyNum.pyInt (-1)) = none := rfl

/-- C7 (amended): multiplying a `ToCountMap` by a `PwQPolynomial` succeeds
and multiplies every value by it (preserving the key set); multiplying by
anything else — including a plain numeric scalar such as `-1` — raises
`ValueError`. -/
theorem c7_mul_amended {κ : Type} :
    (∀ (a : ToCountMap κ) (p : Int),
        a.mulPy (PyNum.qpoly p) = some (a.scale p) ∧
        (∀ k, (a.scale p).get k = a.get k * p) ∧
        (∀ k, ((a.scale p) k).isSome = (a k).isSome)) ∧
    (∀ (a : ToCountMap κ) (s : PyNum), (∀ p, s ≠ PyNum.qpoly p) →
        a.mulPy s = none) := by
  constructor
  · intro a p
    refine ⟨rfl, fun k => ToCountMap.get_scale a p k, fun k => ?_⟩
    unfold ToCountMap.scale
    cases a k <;> simp
  · intro a s hs
    cases s with
    | qpoly p => exact absurd rfl (hs p)
    | pyInt n => rfl
    | pyOther => rfl

/-- C7 witness: the amended theorem applied at a concrete map and the
concrete non-polynomial scalar `5`. -/
theorem c7_mul_amended_witness :
    (ToCountMap.single "k" 3).mulPy (PyNum.pyInt 5) = none :=
  (c7_mul_amended (κ := String)).2 (ToCountMap.single "k" 3) (PyNum.pyInt 5)
    (fun _q h => PyNum.noConfusion h)

/-! ## ExpressionOpCounter (statistics.py lines 171-297)

Pymbolic expression trees, restricted to the node kinds the claims are
about: constants, (tagged) variables, n-ary sums and n-ary products.
The kernel's `TypeInferenceMapper` is an external collaborator; it is
modelled as an oracle `ti : PExpr → String` assigning a dtype name to
every subexpression. -/

inductive PExpr : Type
  | const (n : Int)
  | pvar (s : String)
  | sum (children : List PExpr)
  | prod (children : List PExpr)

/-- The key `TypedOp(dtype, name)` (lines 108-120): equality compares both
fields. -/
structure TypedOp where
  dtype : String
  opname : String
deriving DecidableEq

/-- `pymbolic.primitives.is_zero(child + 1)` from `map_product`
(lines 211-218): for a constant `c`, `c + 1` folds to the constant `c + 1`,
which is zero exactly when `c = -1`; for any non-constant child, `child + 1`
is an unsimplified `Sum` node and never identically zero. -/
def isMinusOne : PExpr → Bool
  | .const n => n = -1
  | _ => false

theorem sizeOf_lt_of_mem_children {c : PExpr} {cs : List PExpr}
    (h : c ∈ cs) : sizeOf c < 1 + sizeOf cs := by
  have := List.sizeOf_lt_of_mem h
  omega

/-- `ExpressionOpCounter` restricted to the modelled node kinds:
`map_constant`/`map_variable`/`map_tagged_variable` (lines 181-184) return
the empty map; `map_sum` (lines 205-209) yields `len(children) - 1` units of
`TypedOp(type, "add")` plus the recursive counts of all children; and
`map_product` (lines 211-218) sums, over the children `c` with
`not is_zero(c + 1)`, one `mul` unit plus the recursive count of `c`, and
finally adds a compensating `{mul: -1}` map. -/
def opCount (ti : PExpr → String) : PExpr → ToCountMap TypedOp
  | .const _ => ToCountMap.empty
  | .pvar _ => ToCountMap.empty
  | .sum cs =>
      (ToCountMap.single ⟨ti (.sum cs), "add"⟩ ((cs.length : Int) - 1)).add
        (pySum (cs.attach.map (fun c => opCount ti c.1)))
  | .prod cs =>
      (pySum (((cs.filter (fun c => !(isMinusOne c))).attach).map
          (fun c =>
            (ToCountMap.single ⟨ti (.prod cs), "mul"⟩ 1).add
              (opCount ti c.1)))).add
        (ToCountMap.single ⟨ti (.prod cs), "mul"⟩ (-1))
termination_by e => sizeOf e
decreasing_by
  · simp only [PExpr.sum.sizeOf_spec]
    exact sizeOf_lt_of_mem_children c.2
  · simp only [PExpr.prod.sizeOf_spec]
    exact sizeOf_lt_of_mem_children (List.mem_of_mem_filter c.2)

/-- Unfolded right-hand side of `opCount` at a sum node (the `attach` in the
definition is only there for termination). -/
theorem opCount_sum (ti : PExpr → String) (cs : List PExpr) :
    opCount ti (.sum cs) =
      (ToCountMap.single ⟨ti (.sum cs), "add"⟩ ((cs.length : Int) - 1)).add
        (pySum (cs.map (opCount ti))) := by
  rw [opCount]
  simp only [List.map_attach, List.pmap_eq_map]

/-- Unfolded right-hand side of `opCount` at a product node. -/
theorem opCount_prod (ti : PExpr → String) (cs : List PExpr) :
    opCount ti (.prod cs) =
      (pySum ((cs.filter (fun c => !(isMinusOne c))).map
          (fun c =>
            (ToCountMap.single ⟨ti (.prod cs), "mul"⟩ 1).add
              (opCount ti c)))).add
        (ToCountMap.single ⟨ti (.prod cs), "mul"⟩ (-1)) := by
  rw [opCount]
  simp only [List.map_attach, List.pmap_eq_map]

/-! ### List arithmetic helpers -/

theorem sum_map_const_add {α : Type} (l : List α) (a : Int) (f : α → Int) :
    (l.map (fun c => a + f c)).sum = l.length * a + (l.map f).sum := by
  induction l with
  | nil => simp
  | cons x xs ih => simp [ih]; ring

theorem any_map_fn {α β : Type} (l : List α) (g : α → β) (p : β → Bool) :
    (l.map g).any p = l.any (fun c => p (g c)) := by
  induction l <;> simp [*]

theorem map_map_fn {α β γ : Type} (l : List α) (g : α → β) (f : β → γ) :
    (l.map g).map f = l.map (fun c => f (g c)) := by
  induction l <;> simp [*]

theorem any_congr_fn {α : Type} (l : List α) (p q : α → Bool)
    (h : ∀ c ∈ l, p c = q c) : l.any p = l.any q := by
  induction l with
  | nil => simp
  | cons x xs ih =>
      simp only [List.any_cons]
      rw [h x (List.mem_cons_self x xs),
        ih (fun c hc => h c (List.mem_cons_of_mem x hc))]

theorem any_or_left {α : Type} (l : List α) (b : Bool) (f : α → Bool) :
    (l.any (fun c => b || f c)) = ((!l.isEmpty) && b || l.any f) := by
  induction l with
  | nil => simp
  | cons x xs ih =>
      cases b <;> simp [ih]

/-! ## Claim C3: map_product -/

/-- C3: for every product node, `map_product` (lines 211-218) returns `m - 1`
units of `TypedOp(type, "mul")` — where `m` is the number of children `c`
with `c + 1` not identically zero, i.e. children other than the literal `-1`
— plus the recursive counts of exactly those children; literal `-1` children
contribute no `mul` unit and are not recursed into.  Stated as equality of
the returned dicts. -/
theorem c3_map_product (ti : PExpr → String) (cs : List PExpr) :
    opCount ti (.prod cs) =
      (ToCountMap.single ⟨ti (.prod cs), "mul"⟩
          (((cs.filter (fun c => !(isMinusOne c))).length : Int) - 1)).add
        (pySum ((cs.filter (fun c => !(isMinusOne c))).map (opCount ti))) := by
  rw [opCount_prod]
  set real := cs.filter (fun c => !(isMinusOne c)) with hreal
  set mulkey : TypedOp := ⟨ti (.prod cs), "mul"⟩ with hkey
  apply ToCountMap.eq_of_parts
  · intro k
    rw [ToCountMap.isSome_add, ToCountMap.isSome_add,
        ToCountMap.isSome_pySum, ToCountMap.isSome_pySum,
        ToCountMap.isSome_single, ToCountMap.isSome_single,
        any_map_fn, any_map_fn]
    have hstep : ∀ c ∈ real,
        (((ToCountMap.single mulkey 1).add (opCount ti c)) k).isSome =
          ((decide (k = mulkey)) || ((opCount ti c) k).isSome) := by
      intro c _
      rw [ToCountMap.isSome_add, ToCountMap.isSome_single, Bool.or_comm]
    rw [any_congr_fn real _ _ hstep,
      any_or_left real (decide (k = mulkey))
        (fun c => ((opCount ti c) k).isSome)]
    by_cases hk : k = mulkey <;> simp [hk]
  · intro k
    rw [ToCountMap.get_add, ToCountMap.get_add,
        ToCountMap.get_pySum, ToCountMap.get_pySum,
        ToCountMap.get_single, ToCountMap.get_single,
        map_map_fn, map_map_fn]
    have hmap : real.map (fun c =>
          ((ToCountMap.single mulkey 1).add (opCount ti c)).get k) =
        real.map (fun c =>
          (if k = mulkey then (1 : Int) else 0) + (opCount ti c).get k) := by
      apply List.map_congr_left
      intro c _
      rw [ToCountMap.get_add, ToCountMap.get_single]
    rw [hmap,
      sum_map_const_add real (if k = mulkey then (1 : Int) else 0)
        (fun c => (opCount ti c).get k)]
    by_cases hk : k = mulkey <;> simp [hk] <;> ring

/-! ## Claim C2: map_sum -/

theorem opCount_const (ti : PExpr → String) (n : Int) :
    opCount ti (.const n) = ToCountMap.empty := by
  rw [opCount]

theorem opCount_var (ti : PExpr → String) (s : String) :
    opCount ti (.pvar s) = ToCountMap.empty := by
  rw [opCount]

/-- `get` of `map_sum`'s result at an arbitrary key. -/
theorem opCount_sum_get (ti : PExpr → String) (cs : List PExpr) (key : TypedOp) :
    (opCount ti (.sum cs)).get key =
      (if key = ⟨ti (.sum cs), "add"⟩ then (cs.length : Int) - 1 else 0) +
        (cs.map (fun c => (opCount ti c).get key)).sum := by
  rw [opCount_sum, ToCountMap.get_add, ToCountMap.get_single,
    ToCountMap.get_pySum, map_map_fn]

/-- Claim C2's class of inputs: expressions composed solely of additions of
atomic operands.  `SumTree ti τ e k` says `e` is built from atomic leaves
(constants, variables) and nonempty n-ary sum nodes only, that the kernel's
type inference assigns dtype `τ` to every sum node, and that `e` has `k`
atomic leaves.  A sum node is recorded as a list of (child, leaf-count)
pairs. -/
inductive SumTree (ti : PExpr → String) (τ : String) : PExpr → Nat → Prop
  | leafC (n : Int) : SumTree ti τ (.const n) 1
  | leafV (s : String) : SumTree ti τ (.pvar s) 1
  | node (l : List (PExpr × Nat)) (hne : l ≠ [])
      (hty : ti (.sum (l.map Prod.fst)) = τ)
      (hch : ∀ p ∈ l, SumTree ti τ p.1 p.2) :
      SumTree ti τ (.sum (l.map Prod.fst)) ((l.map Prod.snd).sum)

theorem sum_map_sub_one (l : List (PExpr × Nat)) (f : PExpr × Nat → Int) :
    (l.map (fun p => f p - 1)).sum = (l.map f).sum - l.length := by
  induction l with
  | nil => simp
  | cons x xs ih => simp [ih]; ring

/-- C2: for an expression composed solely of additions of `k` atomic
operands (`map_sum`, lines 205-209, together with the leaf handlers,
lines 181-184), the operation counter returns exactly `k - 1` units at the
key `TypedOp(τ, "add")` — `τ` the inferred type — and zero units at every
other key; and in general an n-ary sum node contributes `n - 1` `add` units
plus the recursive counts of its children. -/
theorem c2_sum_only_add_count (ti : PExpr → String) (τ : String) :
    (∀ (e : PExpr) (k : Nat), SumTree ti τ e k →
      (opCount ti e).get ⟨τ, "add"⟩ = (k : Int) - 1 ∧
      (∀ key : TypedOp, key ≠ ⟨τ, "add"⟩ → (opCount ti e).get key = 0)) ∧
    (∀ (cs : List PExpr) (key : TypedOp),
      (opCount ti (.sum cs)).get key =
        (if key = ⟨ti (.sum cs), "add"⟩ then (cs.length : Int) - 1 else 0) +
          (cs.map (fun c => (opCount ti c).get key)).sum) := by
  constructor
  · intro e k h
    induction h with
    | leafC n => exact ⟨by rw [opCount_const]; rfl, fun key _ => by rw [opCount_const]; rfl⟩
    | leafV s => exact ⟨by rw [opCount_var]; rfl, fun key _ => by rw [opCount_var]; rfl⟩
    | node l hne hty hch ih =>
        constructor
        · rw [opCount_sum_get, hty, if_pos rfl, map_map_fn]
          have hc : l.map (fun p => (opCount ti p.1).get ⟨τ, "add"⟩) =
              l.map (fun p => (p.2 : Int) - 1) :=
            List.map_congr_left (fun p hp => (ih p hp).1)
          rw [hc, sum_map_sub_one l (fun p => (p.2 : Int))]
          have hcast : ((l.map Prod.snd).sum : Int) =
              (l.map (fun p => (p.2 : Int))).sum := by
            rw [Nat.cast_list_sum, map_map_fn]
          rw [hcast]
          simp
        · intro key hkey
          rw [opCount_sum_get, hty, if_neg hkey, map_map_fn]
          have hc : l.map (fun p => (opCount ti p.1).get key) =
              l.map (fun _ => (0 : Int)) :=
            List.map_congr_left (fun p hp => (ih p hp).2 key hkey)
          rw [hc]
          simp
  · exact opCount_sum_get ti

/-- C2 witness: the theorem applied to the concrete three-leaf sum
`a + b + c` with all types inferred as `f32`; the counter reports
`3 - 1 = 2` add units and nothing else. -/
theorem c2_sum_only_add_count_witness :
    (opCount (fun _ => "f32") (.sum [.pvar "a", .pvar "b", .pvar "c"])).get
        ⟨"f32", "add"⟩ = (3 : Int) - 1 ∧
    (∀ key : TypedOp, key ≠ ⟨"f32", "add"⟩ →
      (opCount (fun _ => "f32")
          (.sum [.pvar "a", .pvar "b", .pvar "c"])).get key = 0) :=
  (c2_sum_only_add_count (fun _ => "f32") "f32").1
    (.sum [.pvar "a", .pvar "b", .pvar "c"]) 3
    (SumTree.node
      [(.pvar "a", 1), (.pvar "b", 1), (.pvar "c", 1)]
      (by simp) rfl
      (by
        intro p hp
        simp only [List.mem_cons, List.not_mem_nil, or_false] at hp
        rcases hp with h | h | h <;> subst h <;> exact SumTree.leafV _))

/-! ## GlobalSubscriptCounter (statistics.py lines 412-583)

The kernel IR consumed by `map_subscript` (lines 431-511): per-iname tags
(`LocalIndexTag` with an axis number, `GroupIndexTag`, or sequential),
per-argument metadata (`GlobalArg` with a list of dimension tags, each
either a `FixedStrideArrayDimTag` or something else), and the kernel's
iname set.  Index expressions are opaque: the external helpers
`get_dependencies` and `CoefficientCollector` are oracle parameters
(`deps`, `coeffOf`); `coeffOf e v = some c` models the collector's
coefficient dict for `e` containing variable `v` with coefficient `c`,
`none` models the `KeyError` path. -/

inductive IndexTag : Type
  | localIdx (axis : Nat)
  | groupIdx (axis : Nat)
  | seqIdx
deriving DecidableEq

inductive DimTag : Type
  | fixedStride (s : Int)
  | otherDimTag
deriving DecidableEq

inductive ArgInfo : Type
  | globalArg (dimTags : List DimTag)
  | nonGlobalArg
deriving DecidableEq

structure Knl where
  argDict : String → Option ArgInfo
  inameToTag : String → Option IndexTag
  allInames : List String

/-- Python's `sys.maxsize` on a 64-bit build, used both as the initial
minimum (line 454) and as the worst-case stride sentinel (line 508). -/
def sysMaxsize : Int := 2 ^ 63 - 1

/-- The key `StridedGmemAccess(dtype, stride, direction, variable)`
(lines 141-166); the `variable` attribute is called `varName` here.  A
stride is `none` (Python `None`), or `some n` (a Python `int`, with
`some sysMaxsize` the sentinel). -/
structure StridedGmemAccess where
  dtype : String
  stride : Option Int
  direction : Option String
  varName : String
deriving DecidableEq

/-- `isinstance(tag, LocalIndexTag)` on the result of
`knl.iname_to_tag.get(iname)`. -/
def isLocalTag : Option IndexTag → Bool
  | some (.localIdx _) => true
  | _ => false

/-- `get_dependencies(index) & self.knl.all_inames()` (line 450): the
variables of the whole index tuple, intersected with the kernel's inames. -/
def myInames {IdxE : Type} (deps : IdxE → List String) (knl : Knl)
    (index : List IdxE) : List String :=
  ((index.map deps).flatten.dedup).filter (fun i => decide (i ∈ knl.allInames))

/-- The `local_id_found` flag of the loop at lines 454-461. -/
def localIdFound (knl : Knl) (inames : List String) : Bool :=
  inames.any (fun i => isLocalTag (knl.inameToTag i))

/-- The `min_tag_axis` accumulator of the same loop, starting at
`sys.maxsize`. -/
def minTagAxis (knl : Knl) (inames : List String) : Int :=
  inames.foldl
    (fun m i =>
      match knl.inameToTag i with
      | some (.localIdx a) => if (a : Int) < m then (a : Int) else m
      | _ => m)
    sysMaxsize

/-- The `min_lid` loop (lines 470-476): the first iname whose local-index
tag has the minimum axis (the code breaks at the first hit and relies on
there being one). -/
def minLid (knl : Knl) (inames : List String) : String :=
  (inames.find?
    (fun i =>
      match knl.inameToTag i with
      | some (.localIdx a) => (a : Int) == minTagAxis knl inames
      | _ => false)).getD ""

/-- The stride loop (lines 480-502): `total_stride` starts as `None`
and `extra_stride` as 1; for each `(idx, axis_tag)` pair of
`zip(index, array.dim_tags)`, if the coefficient dict of `idx` contains
`min_lid` and the axis tag is a `FixedStrideArrayDimTag`, overwrite
`total_stride` with `stride * coeff_min_lid * extra_stride`. -/
def totalStride {IdxE : Type} (coeffOf : IdxE → String → Option Int)
    (lid : String) (pairs : List (IdxE × DimTag)) : Option Int :=
  pairs.foldl
    (fun acc p =>
      match coeffOf p.1 lid with
      | none => acc
      | some c =>
        match p.2 with
        | .fixedStride s => some (s * c * 1)
        | .otherDimTag => acc)
    none

/-- `GlobalSubscriptCounter.map_subscript` (lines 431-511), restricted to
the `StridedGmemAccess` key the subscript node itself contributes (`none`
when the array is not a global-memory argument and the node only recurses
into the index; the `+ self.rec(expr.index)` recursion is the generic
traversal and adds no key for this node). -/
def mapSubscriptKey {IdxE : Type} (deps : IdxE → List String)
    (coeffOf : IdxE → String → Option Int) (knl : Knl) (τ : String)
    (name : String) (index : List IdxE) : Option StridedGmemAccess :=
  match knl.argDict name with
  | none => none
  | some .nonGlobalArg => none
  | some (.globalArg dimTags) =>
    let inames := myInames deps knl index
    if localIdFound knl inames then
      let lid := minLid knl inames
      let ts := totalStride coeffOf lid (index.zip dimTags)
      if minTagAxis knl inames ≠ 0 then
        some ⟨τ, some sysMaxsize, none, name⟩
      else
        some ⟨τ, ts, none, name⟩
    else
      some ⟨τ, some 0, none, name⟩

/-! ### get_gmem_access_poly's weighting loop (lines 919-962)

`get_insn_count(knl, insn_inames, uniform)` builds the instruction's
iteration domain (dropping `LocalIndexTag` inames when `uniform`) and
counts it; the composition of `get_inames_domain`, projection and `count`
is the geometry oracle `dcount`. -/

def getInsnCount (dcount : List String → Int) (knl : Knl)
    (insnInames : List String) (uniform : Bool) : Int :=
  let inames :=
    if uniform then
      insnInames.filter (fun i => !(isLocalTag (knl.inameToTag i)))
    else insnInames
  dcount inames

/-- The per-key weighting loop over one traversal's dict (lines 951-956 and
identically 957-962): each key's one-entry map is scaled by the uniform
insn count when `isinstance(key.stride, int) and key.stride == 0`, else by
the full insn count, and summed into `subs_poly`. -/
def weightGmem (dcount : List String → Int) (knl : Knl)
    (insnInames : List String)
    (entries : List (StridedGmemAccess × Int)) : ToCountMap StridedGmemAccess :=
  entries.foldl
    (fun acc kv =>
      acc.add
        (if kv.1.stride = some 0 then
          (ToCountMap.single kv.1 kv.2).scale
            (getInsnCount dcount knl insnInames true)
        else
          (ToCountMap.single kv.1 kv.2).scale
            (getInsnCount dcount knl insnInames false)))
    ToCountMap.empty

theorem get_foldl_add {κ α : Type} (entries : List α) (f : α → ToCountMap κ)
    (init : ToCountMap κ) (k : κ) :
    (entries.foldl (fun acc x => acc.add (f x)) init).get k =
      init.get k + (entries.map (fun x => (f x).get k)).sum := by
  induction entries generalizing init with
  | nil => simp
  | cons x xs ih =>
      simp only [List.foldl_cons, List.map_cons, List.sum_cons]
      rw [ih (init.add (f x)), ToCountMap.get_add]
      ring

/-! ## Claims C4, C5, C10: global access classification and weighting -/

/-- A left fold whose step fixes the accumulator on every list element
returns its initial value. -/
theorem foldl_id_of {α β : Type} (f : β → α → β) :
    ∀ (l : List α) (b : β), (∀ a ∈ l, ∀ acc, f acc a = acc) →
      l.foldl f b = b
  | [], _, _ => rfl
  | x :: xs, b, h => by
      rw [List.foldl_cons, h x (List.mem_cons_self x xs) b]
      exact foldl_id_of f xs b
        (fun a ha acc => h a (List.mem_cons_of_mem x ha) acc)

/-- Shared characterization of the weighting loop: the aggregate's value at
key `k` sums, over the entries at `k`, the entry's count times the uniform
count (lane-tagged inames filtered out) when `k.stride` is the int 0, else
times the full count. -/
theorem weightGmem_get (dcount : List String → Int) (knl : Knl)
    (insnInames : List String)
    (entries : List (StridedGmemAccess × Int)) (k : StridedGmemAccess) :
    (weightGmem dcount knl insnInames entries).get k =
      (entries.map (fun kv =>
        if kv.1 = k then
          kv.2 * (if k.stride = some 0 then
            dcount (insnInames.filter
              (fun i => !(isLocalTag (knl.inameToTag i))))
          else dcount insnInames)
        else 0)).sum := by
  unfold weightGmem
  rw [get_foldl_add]
  have hz : ToCountMap.get (κ := StridedGmemAccess) ToCountMap.empty k = 0 := rfl
  rw [hz, zero_add]
  apply congrArg
  apply List.map_congr_left
  intro kv _
  by_cases hk : kv.1 = k
  · subst hk
    by_cases hs : kv.1.stride = some 0
    · rw [if_pos hs, if_pos rfl, if_pos hs, ToCountMap.get_scale,
        ToCountMap.get_single, if_pos rfl]
      simp [getInsnCount]
    · rw [if_neg hs, if_pos rfl, if_neg hs, ToCountMap.get_scale,
        ToCountMap.get_single, if_pos rfl]
      simp [getInsnCount]
  · rw [if_neg hk]
    have hne : ¬(k = kv.1) := fun h => hk h.symm
    by_cases hs : kv.1.stride = some 0 <;>
      simp [hs, ToCountMap.get_scale, ToCountMap.get_single, hne]

/-- C4: (a) a subscript into a global-memory array whose index depends on
no `LocalIndexTag`-tagged iname is classified uniform, stride `0`
(lines 463-467); (b) in `get_gmem_access_poly`'s weighting loop
(lines 951-962) every stride-0 key is weighted by the execution count taken
after filtering lane-tagged inames out of the instruction's iname set,
while every other key is weighted by the full count. -/
theorem c4_uniform_access :
    (∀ {IdxE : Type} (deps : IdxE → List String)
        (coeffOf : IdxE → String → Option Int) (knl : Knl) (τ name : String)
        (index : List IdxE) (dt : List DimTag),
      knl.argDict name = some (.globalArg dt) →
      (∀ i ∈ myInames deps knl index, isLocalTag (knl.inameToTag i) = false) →
      mapSubscriptKey deps coeffOf knl τ name index =
        some ⟨τ, some 0, none, name⟩) ∧
    (∀ (dcount : List String → Int) (knl : Knl) (insnInames : List String)
        (entries : List (StridedGmemAccess × Int)) (k : StridedGmemAccess),
      (weightGmem dcount knl insnInames entries).get k =
        (entries.map (fun kv =>
          if kv.1 = k then
            kv.2 * (if k.stride = some 0 then
              dcount (insnInames.filter
                (fun i => !(isLocalTag (knl.inameToTag i))))
            else dcount insnInames)
          else 0)).sum) := by
  constructor
  · intro IdxE deps coeffOf knl τ name index dt hname hnl
    have hfound : localIdFound knl (myInames deps knl index) = false := by
      rw [localIdFound, List.any_eq_false]
      intro i hi
      simp [hnl i hi]
    unfold mapSubscriptKey
    rw [hname]
    simp only [hfound]
    rfl
  · exact weightGmem_get

/-- Concrete kernel used by the C4/C5/C10 witnesses: one global array `A`
with a unit-stride dimension tag, a sequential iname `j`, and local-index
inames `l1` (axis 1) and `l0` (axis 0). -/
def knlW : Knl where
  argDict := fun n =>
    if n = "A" then some (.globalArg [.fixedStride 1]) else none
  inameToTag := fun i =>
    if i = "j" then some .seqIdx
    else if i = "l1" then some (.localIdx 1)
    else if i = "l0" then some (.localIdx 0)
    else none
  allInames := ["j", "l1", "l0"]

/-- C4 witness: the classification half applied to `A[j]` with `j`
sequential (index expressions are variable names, `deps` returns the name,
the coefficient oracle is empty), and the weighting half applied at a
stride-0 key with one entry. -/
theorem c4_uniform_access_witness :
    mapSubscriptKey (fun s => [s]) (fun _ _ => none) knlW "f32" "A" ["j"] =
      some ⟨"f32", some 0, none, "A"⟩ ∧
    (weightGmem (fun l => l.length) knlW ["j", "l0"]
        [(⟨"f32", some 0, none, "A"⟩, 3)]).get ⟨"f32", some 0, none, "A"⟩ =
      3 * 1 := by
  constructor
  · exact c4_uniform_access.1 (fun s => [s]) (fun _ _ => none) knlW
      "f32" "A" ["j"] [.fixedStride 1] (by decide) (by decide)
  · rw [c4_uniform_access.2 (fun l => l.length) knlW ["j", "l0"]
      [(⟨"f32", some 0, none, "A"⟩, 3)] ⟨"f32", some 0, none, "A"⟩]
    decide

/-- C5: when the subscript's index does depend on lane indices but the
minimum lane axis among them is not 0, `map_subscript` (lines 504-508)
returns the `sys.maxsize` worst-case sentinel key instead of a computed
stride, and returns normally (a key is produced, no exception). -/
theorem c5_nonzero_min_axis_sentinel {IdxE : Type} (deps : IdxE → List String)
    (coeffOf : IdxE → String → Option Int) (knl : Knl) (τ name : String)
    (index : List IdxE) (dt : List DimTag)
    (hname : knl.argDict name = some (.globalArg dt))
    (hfound : localIdFound knl (myInames deps knl index) = true)
    (haxis : minTagAxis knl (myInames deps knl index) ≠ 0) :
    mapSubscriptKey deps coeffOf knl τ name index =
      some ⟨τ, some sysMaxsize, none, name⟩ := by
  unfold mapSubscriptKey
  rw [hname]
  simp only [hfound, if_true, if_pos haxis]

/-- C5 witness: `A[l1]` with `l1` on lane axis 1 classifies with the
`sys.maxsize` sentinel. -/
theorem c5_nonzero_min_axis_sentinel_witness :
    mapSubscriptKey (fun s => [s]) (fun _ _ => none) knlW "f32" "A" ["l1"] =
      some ⟨"f32", some sysMaxsize, none, "A"⟩ :=
  c5_nonzero_min_axis_sentinel (fun s => [s]) (fun _ _ => none) knlW
    "f32" "A" ["l1"] [.fixedStride 1] (by decide) (by decide) (by decide)

/-- C10: when the minimum lane axis is 0 but no array dimension both
carries a (necessarily nonzero) coefficient of the min-lane index and has a
`FixedStrideArrayDimTag`, `total_stride` stays `None` (lines 480-502), the
emitted key's stride is the null value `None` — not `0`, not a positive
stride, not the sentinel — and, since `None` is not an `int`, the weighting
loop (lines 951-962) uses the full per-lane execution count for it.  The
side condition `hnz` states the property of the external
`CoefficientCollector` that a coefficient recorded in its dict is
nonzero. -/
theorem c10_null_stride_full_count {IdxE : Type} (deps : IdxE → List String)
    (coeffOf : IdxE → String → Option Int) (knl : Knl) (τ name : String)
    (index : List IdxE) (dt : List DimTag)
    (dcount : List String → Int) (insnInames : List String) (v : Int)
    (hname : knl.argDict name = some (.globalArg dt))
    (hfound : localIdFound knl (myInames deps knl index) = true)
    (haxis : minTagAxis knl (myInames deps knl index) = 0)
    (hnz : ∀ (e : IdxE) (w : String) (c : Int), coeffOf e w = some c → c ≠ 0)
    (hno : ∀ p ∈ index.zip dt,
      ¬((∃ c, coeffOf p.1 (minLid knl (myInames deps knl index)) = some c ∧
          c ≠ 0) ∧ (∃ s, p.2 = .fixedStride s))) :
    mapSubscriptKey deps coeffOf knl τ name index =
      some ⟨τ, none, none, name⟩ ∧
    (weightGmem dcount knl insnInames [(⟨τ, none, none, name⟩, v)]).get
        ⟨τ, none, none, name⟩ = v * dcount insnInames := by
  constructor
  · have hts : totalStride coeffOf (minLid knl (myInames deps knl index))
        (index.zip dt) = none := by
      unfold totalStride
      apply foldl_id_of
      intro p hp acc
      cases hc : coeffOf p.1 (minLid knl (myInames deps knl index)) with
      | none => simp [hc]
      | some c =>
          cases hd : p.2 with
          | fixedStride s =>
              exact absurd ⟨⟨c, hc, hnz _ _ _ hc⟩, ⟨s, hd⟩⟩ (hno p hp)
          | otherDimTag => simp [hc, hd]
    unfold mapSubscriptKey
    rw [hname]
    simp only [hfound, if_true, haxis]
    rw [hts]
    rfl
  · rw [weightGmem_get dcount knl insnInames
      [(⟨τ, none, none, name⟩, v)] ⟨τ, none, none, name⟩]
    simp

/-- C10 witness: `A[l0]` with `l0` on lane axis 0 and an empty coefficient
dict yields the null-stride key, weighted by the full two-iname count. -/
theorem c10_null_stride_full_count_witness :
    mapSubscriptKey (fun s => [s]) (fun _ _ => none) knlW "f32" "A" ["l0"] =
      some ⟨"f32", none, none, "A"⟩ ∧
    (weightGmem (fun l => (l.length : Int)) knlW ["j", "l0"]
        [(⟨"f32", none, none, "A"⟩, 5)]).get ⟨"f32", none, none, "A"⟩ =
      5 * ((["j", "l0"] : List String).length : Int) :=
  c10_null_stride_full_count (fun s => [s]) (fun _ _ => none) knlW "f32" "A"
    ["l0"] [.fixedStride 1] (fun l => (l.length : Int)) ["j", "l0"] 5
    (by decide) (by decide) (by decide)
    (fun _e _w _c h => Option.noConfusion h)
    (by
      intro p hp
      rintro ⟨⟨c, hc, _⟩, _⟩
      exact Option.noConfusion hc)

/-! ## get_barrier_poly (statistics.py lines 1003-1050)

The schedule is a linear sequence of `EnterLoop` / `LeaveLoop` / `Barrier`
items.  `get_barrier_poly` walks it keeping `iname_list` (append on enter,
pop on leave, both skipped for an empty iname) and a running total: on a
barrier it adds the count of the domain of the active inames
(`count ∘ project ∘ get_inames_domain`, the geometry oracle `dc`; the
`reduce(mul, ct)` over the one-tuple `ct` is that count itself) when
`iname_list` is nonempty, else adds the constant 1 polynomial. -/

inductive SchedItem : Type
  | enterLoop (iname : String)
  | leaveLoop (iname : String)
  | barrier
deriving DecidableEq

/-- One step of the schedule walk: the state is `(iname_list, barrier_poly)`. -/
def schedStep (dc : List String → Int) :
    List String × Int → SchedItem → List String × Int
  | (st, acc), .enterLoop i => (if i ≠ "" then st ++ [i] else st, acc)
  | (st, acc), .leaveLoop i => (if i ≠ "" then st.dropLast else st, acc)
  | (st, acc), .barrier => (st, if st ≠ [] then acc + dc st else acc + 1)

/-- `get_barrier_poly`'s loop over `knl.schedule`, started from the empty
iname list and the zero polynomial. -/
def getBarrierPoly (dc : List String → Int) (sched : List SchedItem) : Int :=
  (sched.foldl (schedStep dc) ([], 0)).2

/-- The iname stack alone, after walking a schedule from a given stack. -/
def stackFold : List String → List SchedItem → List String
  | st, [] => st
  | st, .enterLoop i :: rest => stackFold (if i ≠ "" then st ++ [i] else st) rest
  | st, .leaveLoop i :: rest => stackFold (if i ≠ "" then st.dropLast else st) rest
  | st, .barrier :: rest => stackFold st rest

theorem fst_schedFoldl (dc : List String → Int) :
    ∀ (sched : List SchedItem) (st : List String) (acc : Int),
      (sched.foldl (schedStep dc) (st, acc)).1 = stackFold st sched
  | [], _, _ => rfl
  | .enterLoop i :: rest, st, acc => by
      rw [List.foldl_cons, schedStep, stackFold]
      exact fst_schedFoldl dc rest _ acc
  | .leaveLoop i :: rest, st, acc => by
      rw [List.foldl_cons, schedStep, stackFold]
      exact fst_schedFoldl dc rest _ acc
  | .barrier :: rest, st, acc => by
      rw [List.foldl_cons, schedStep, stackFold]
      by_cases hst : st ≠ [] <;> simp [hst] <;>
        exact fst_schedFoldl dc rest st _

/-! ## Claim C6: barrier counting -/

/-- C6: during the schedule walk (lines 1033-1048) a barrier met with a
nonempty active iname stack adds the execution count of the domain
restricted to the active inames, and a barrier met with the empty stack
adds exactly 1; in particular `enter(i), barrier, leave(i)` over a domain
of size `N` yields `N`, and a single bare barrier yields 1. -/
theorem c6_barrier_counting (dc : List String → Int) :
    (∀ sched : List SchedItem,
      getBarrierPoly dc (sched ++ [.barrier]) =
        getBarrierPoly dc sched +
          (if stackFold [] sched ≠ [] then dc (stackFold [] sched) else 1)) ∧
    (∀ (i : String) (N : Int), i ≠ "" → dc [i] = N →
      getBarrierPoly dc [.enterLoop i, .barrier, .leaveLoop i] = N) ∧
    getBarrierPoly dc [.barrier] = 1 := by
  refine ⟨?_, ?_, rfl⟩
  · intro sched
    have hq := fst_schedFoldl dc sched [] 0
    rw [getBarrierPoly, getBarrierPoly, List.foldl_append]
    rcases hfold : List.foldl (schedStep dc) ([], 0) sched with ⟨st, acc⟩
    rw [hfold] at hq
    simp only at hq
    subst hq
    simp only [List.foldl_cons, List.foldl_nil, schedStep]
    by_cases hst : stackFold [] sched ≠ [] <;> simp [hst]
  · intro i N hi hN
    rw [getBarrierPoly]
    simp only [List.foldl_cons, List.foldl_nil, schedStep, if_pos hi]
    simp [hN]

/-- C6 witness: with a domain-count oracle giving the loop `i` size 8, the
one-loop schedule yields 8 and a bare barrier yields 1. -/
theorem c6_barrier_counting_witness :
    getBarrierPoly (fun l => if l = ["i"] then 8 else 0)
      [.enterLoop "i", .barrier, .leaveLoop "i"] = 8 ∧
    getBarrierPoly (fun l => if l = ["i"] then 8 else 0) [.barrier] = 1 :=
  ⟨(c6_barrier_counting (fun l => if l = ["i"] then 8 else 0)).2.1 "i" 8
      (by decide) (by simp),
   (c6_barrier_counting (fun l => if l = ["i"] then 8 else 0)).2.2⟩

/-! ## count (statistics.py lines 647-735)

The fallback path of `count` (taken when the isl set has no exact `card`
backend): the set is decomposed into disjoint basic sets; for each basic
set and each dimension the geometry backend supplies `dim_min`, `dim_max`
and `get_simple_strides` — these backend answers are a `DimData` record
(stride `none` when `get_simple_strides` has no entry, defaulted to 1).
The per-dimension length is the polynomial `(dmax - dmin + stride)`
scaled down by `stride` (`scale_down_val` divides exactly, no flooring),
modelled in `ℚ`; `bset_count` starts as `None` and multiplies the lengths
in, so a 0-dimensional basic set leaves it `None` and contributes nothing
to the running total. -/

structure DimData where
  dmin : Int
  dmax : Int
  simpleStride : Option Int
deriving DecidableEq

/-- `stride = bset_strides.get(...)`, defaulting to 1 (lines 669-671). -/
def dimStride (d : DimData) : Int := d.simpleStride.getD 1

/-- `length = PwQPolynomial.from_pw_aff(dmax - dmin + stride)` scaled down
by `stride` (lines 673-674). -/
def dimLength (d : DimData) : ℚ :=
  ((d.dmax : ℚ) - (d.dmin : ℚ) + (dimStride d : ℚ)) / (dimStride d : ℚ)

/-- The `bset_count` accumulator over one basic set's dimensions
(lines 660-679). -/
def bsetCount (dims : List DimData) : Option ℚ :=
  dims.foldl
    (fun acc d =>
      match acc with
      | none => some (dimLength d)
      | some c => some (c * dimLength d))
    none

/-- The outer loop of `count` (lines 653-735): sum the non-`None`
`bset_count`s over the disjoint pieces. -/
def count (pieces : List (List DimData)) : ℚ :=
  pieces.foldl
    (fun c p =>
      match bsetCount p with
      | none => c
      | some b => c + b)
    0

/-- Membership in the rebuilt check domain `bset_rebuilt` (lines 681-704):
per dimension, `dmin ≤ x ≤ dmax` and `(x - dmin) mod stride = 0`. -/
def rebuiltMem (dims : List DimData) (pt : List Int) : Prop :=
  List.Forall₂
    (fun d x => d.dmin ≤ x ∧ x ≤ d.dmax ∧ (x - d.dmin) % dimStride d = 0)
    dims pt

/-- The approximation diagnostic (lines 709-733) fires for a piece exactly
when the piece is not equal, as a point set, to its rebuilt strided box
(`not (is_subset and is_superset)`). -/
def diagEmitted (S : List Int → Prop) (dims : List DimData) : Prop :=
  ¬(∀ pt, S pt ↔ rebuiltMem dims pt)

/-- The value claim C1 asserts for one piece: the product over dimensions
of `⌊(max - min)/stride⌋ + 1` (with a 0-dimensional piece amended to
contribute nothing, matching the `bset_count is None` guard). -/
def pieceFormula (p : List DimData) : ℚ :=
  if p = [] then 0
  else (p.map (fun d =>
    (((d.dmax - d.dmin) / dimStride d + 1 : Int) : ℚ))).prod

/-- The rectangle `[0, N-1] × [0, M-1]` as a point set. -/
def rectNM (N M : Int) (pt : List Int) : Prop :=
  ∃ i j, pt = [i, j] ∧ 0 ≤ i ∧ i ≤ N - 1 ∧ 0 ≤ j ∧ j ≤ M - 1

theorem count_eq_sum (pieces : List (List DimData)) :
    count pieces = (pieces.map (fun p => (bsetCount p).getD 0)).sum := by
  unfold count
  suffices h : ∀ (l : List (List DimData)) (c : ℚ),
      l.foldl (fun c p => match bsetCount p with
        | none => c
        | some b => c + b) c =
        c + (l.map (fun p => (bsetCount p).getD 0)).sum by
    rw [h pieces 0, zero_add]
  intro l
  induction l with
  | nil => intro c; simp
  | cons p ps ih =>
      intro c
      rw [List.foldl_cons, List.map_cons, List.sum_cons]
      cases hb : bsetCount p with
      | none => rw [ih c]; simp
      | some b => rw [ih (c + b)]; simp; ring

theorem bsetCount_cons_aux (ds : List DimData) :
    ∀ q : ℚ,
      ds.foldl
        (fun acc d =>
          match acc with
          | none => some (dimLength d)
          | some c => some (c * dimLength d))
        (some q) = some (q * (ds.map dimLength).prod) := by
  induction ds with
  | nil => intro q; simp
  | cons e es ih =>
      intro q
      rw [List.foldl_cons]
      simp only
      rw [ih (q * dimLength e)]
      simp [mul_assoc]

theorem bsetCount_eq (dims : List DimData) :
    bsetCount dims =
      match dims with
      | [] => none
      | _ :: _ => some ((dims.map dimLength).prod) := by
  cases dims with
  | nil => rfl
  | cons d ds =>
      unfold bsetCount
      rw [List.foldl_cons]
      simp only
      rw [bsetCount_cons_aux ds (dimLength d)]
      simp

/-! ## Claim C1: domain counting -/

/-- C1 counterexample: the claim as stated says every convex piece
contributes the product over its dimensions of `⌊(max-min)/stride⌋ + 1`; a
0-dimensional basic set (e.g. the 0-dimensional universe `{[]}`, one point)
has empty product 1, but in the code `bset_count` stays `None`
(lines 660-706) and the piece contributes nothing: `count` returns 0, not
the claimed 1. -/
theorem c1_count_counterexample :
    count [[]] = 0 ∧
    (([[]] : List (List DimData)).map (fun p =>
      (p.map (fun d =>
        (((d.dmax - d.dmin) / dimStride d + 1 : Int) : ℚ))).prod)).sum = 1 := by
  constructor
  · rfl
  · simp

/-- C1 (amended): for pieces whose backend data is consistent (positive
stride dividing `dmax - dmin`, as holds when `dim_min`/`dim_max` are
attained on a stride-congruent set), `count` returns the sum over pieces of
the product over dimensions of `⌊(max-min)/stride⌋ + 1` (stride defaulting
to 1), except that a 0-dimensional piece contributes 0; and on the
rectangular unit-stride domain `[0, N-1] × [0, M-1]` at `N = 4`, `M = 3`
the result is 12 with no approximation diagnostic (the rebuilt box equals
the domain). -/
theorem c1_count_amended :
    (∀ pieces : List (List DimData),
      (∀ p ∈ pieces, ∀ d ∈ p,
        0 < dimStride d ∧ dimStride d ∣ (d.dmax - d.dmin)) →
      count pieces = (pieces.map pieceFormula).sum) ∧
    count [[⟨0, 3, none⟩, ⟨0, 2, none⟩]] = 12 ∧
    ¬ diagEmitted (rectNM 4 3) [⟨0, 3, none⟩, ⟨0, 2, none⟩] := by
  refine ⟨?_, ?_, ?_⟩
  · intro pieces hcons
    rw [count_eq_sum]
    apply congrArg
    apply List.map_congr_left
    intro p hp
    cases hpn : p with
    | nil => simp [bsetCount, pieceFormula]
    | cons d ds =>
        rw [bsetCount_eq]
        simp only [Option.getD_some, pieceFormula, if_neg (by simp : d :: ds ≠ [])]
        apply congrArg
        apply List.map_congr_left
        intro e he
        have hc := hcons p hp e (by rw [hpn]; exact he)
        have hδ : dimStride e ∣ (e.dmax - e.dmin) := hc.2
        have hs0 : (dimStride e : ℚ) ≠ 0 := by
          exact_mod_cast ne_of_gt hc.1
        rw [dimLength]
        push_cast [Int.cast_div_charZero hδ]
        field_simp
  · norm_num [count, bsetCount, dimLength, dimStride]
  · rw [diagEmitted]
    intro hq
    apply hq
    intro pt
    constructor
    · rintro ⟨i, j, rfl, h0, h1, h2, h3⟩
      have h1' : i ≤ 3 := by omega
      have h3' : j ≤ 2 := by omega
      exact List.Forall₂.cons ⟨h0, h1', by simp [dimStride]⟩
        (List.Forall₂.cons ⟨h2, h3', by simp [dimStride]⟩ List.Forall₂.nil)
    · intro h
      cases h with
      | cons h1 h2 =>
          rename_i x l₁
          cases h2 with
          | cons h3 h4 =>
              rename_i y l₂
              cases h4
              obtain ⟨ha, hb, -⟩ := h1
              obtain ⟨hc, hd, -⟩ := h3
              have hb' : x ≤ 3 := hb
              have hd' : y ≤ 2 := hd
              exact ⟨x, y, rfl, ha, by omega, hc, by omega⟩

/-- C1 witness: the amended general formula applied at the concrete
two-piece input `{[0,3] × [0,2]} ∪ {even points of [0,8]}` (the second
piece with simple stride 2), evaluating to `12 + 5 = 17`. -/
theorem c1_count_amended_witness :
    count [[⟨0, 3, none⟩, ⟨0, 2, none⟩], [⟨0, 8, some 2⟩]] =
      (([[⟨0, 3, none⟩, ⟨0, 2, none⟩], [⟨0, 8, some 2⟩]] :
        List (List DimData)).map pieceFormula).sum :=
  c1_count_amended.1 [[⟨0, 3, none⟩, ⟨0, 2, none⟩], [⟨0, 8, some 2⟩]]
    (by decide)

/-! ## AccessFootprintGatherer (statistics.py lines 588-642) and
gather_access_footprints (lines 1057-1094)

A per-expression result is a Python dict mapping array names to access
ranges (polyhedral sets, modelled as `Finset Int`) — or the Python value
`None`, which `map_subscript`'s bare `return` produces when
`get_access_range` raises (lines 625-633).  `combine` (lines 593-609) is
`reduce(merge_dicts, values)`; `merge_dicts` crashes on a `None` operand
(`None.copy()` raises `AttributeError`; iterating `None`'s items raises
`TypeError`), so a crash outcome is a third possibility, modelled with
`Except`. -/

def Footprint : Type := String → Option (Finset Int)

def emptyFootprint : Footprint := fun _ => none

def singleFootprint (name : String) (r : Finset Int) : Footprint :=
  fun v => if v = name then some r else none

/-- `merge_dicts(a, b)` (lines 597-606): start from a copy of `a`, then
union `b`'s footprint in at each of `b`'s keys. -/
def mergeDicts (a b : Footprint) : Footprint :=
  fun v =>
    match b v with
    | none => a v
    | some s =>
      match a v with
      | none => some s
      | some t => some (t ∪ s)

/-- One `reduce` step `merge_dicts(acc, b)` where either operand may be the
Python value `None`. -/
def mergeStep : Option Footprint → Option Footprint → Except String Footprint
  | none, _ => .error "AttributeError: NoneType has no attribute copy"
  | some _, none => .error "TypeError: NoneType is not iterable"
  | some a, some b => .ok (mergeDicts a b)

/-- `combine(values) = reduce(merge_dicts, values)` (lines 593-609): an
empty sequence crashes `reduce`, a singleton returns its sole element
unexamined (even when it is `None`), longer sequences merge left to
right. -/
def combineVals : List (Option Footprint) → Except String (Option Footprint)
  | [] => .error "TypeError: reduce of empty sequence"
  | v :: vs => vs.foldlM (fun acc b => (mergeStep acc b).map some) v

/-- Expressions traversed by the gatherer: constants and variables
(lines 611-615, result `{}`), subscripts (lines 617-640), and sum nodes
(the inherited `CombineMapper.map_sum`, which combines the children's
results; modelled with two children, which is what `combine` sees
pairwise under `reduce`). -/
inductive FExpr : Type
  | fconst (n : Int)
  | fvar (name : String)
  | fsum (a b : FExpr)
  | fsub (aggName : String) (index : FExpr)

/-- `AccessFootprintGatherer`'s recursion.  `gar` is the external
`get_access_range(domain, subscript, assumptions)`: `none` models the
`isl.Error`/`TypeError` it raises on an index the geometry library cannot
represent (caught at lines 628-633, upon which `map_subscript` returns
Python `None`); `some r` is the computed range.  On success the subscript
combines the recursive index result with `{name: access_range}`
(lines 638-640). -/
def afgRec (gar : FExpr → Option (Finset Int)) :
    FExpr → Except String (Option Footprint)
  | .fconst _ => .ok (some emptyFootprint)
  | .fvar _ => .ok (some emptyFootprint)
  | .fsum a b =>
      match afgRec gar a with
      | .error e => .error e
      | .ok va =>
        match afgRec gar b with
        | .error e => .error e
        | .ok vb => combineVals [va, vb]
  | .fsub name idx =>
      match gar idx with
      | none => .ok none
      | some r =>
        match afgRec gar idx with
        | .error e => .error e
        | .ok v => combineVals [v, some (singleFootprint name r)]

/-- One side (read or write) of `gather_access_footprints`
(lines 1064-1092): run the gatherer over each instruction's expression,
`combine` the per-instruction results, then iterate the combined dict's
items — which crashes with `TypeError` if the combined value is `None`. -/
def gatherSide (gar : FExpr → Option (Finset Int)) (exprs : List FExpr) :
    Except String Footprint :=
  match exprs.mapM (afgRec gar) with
  | .error e => .error e
  | .ok vals =>
    match combineVals vals with
    | .error e => .error e
    | .ok none => .error "TypeError: NoneType is not iterable"
    | .ok (some f) => .ok f

/-! ## Claim C9: non-linear index during footprint gathering -/

/-- The access-range oracle of the C9 failing input: constant indices are
representable (range `{0}`), anything else — in particular the non-linear
index standing behind the variable `q` — makes `get_access_range` raise. -/
def garW : FExpr → Option (Finset Int) := fun e =>
  match e with
  | .fconst _ => some {0}
  | _ => none

/-- C9: the claim says that when `get_access_range` raises on one
subscript, only that subscript's footprint is dropped and the overall
computation completes normally with the remaining footprints.  In the code,
`map_subscript`'s bare `return` (lines 630, 633) yields Python `None`,
which poisons every later `merge_dicts`: with an expression containing the
failing subscript `A[q]` next to the healthy `B[0]`, `combine` crashes with
`AttributeError` (on `None.copy()`), and even a lone failing subscript
crashes the final `six.iteritems` loop with `TypeError` — the computation
never completes normally, contradicting the claim (but matching the
comment's intent of "nothing we can do", hence a code bug, not spec
error). -/
theorem c9_nonlinear_footprint_crash :
    gatherSide garW [.fsum (.fsub "A" (.fvar "q")) (.fsub "B" (.fconst 0))] =
      .error "AttributeError: NoneType has no attribute copy" ∧
    gatherSide garW [.fsub "A" (.fvar "q")] =
      .error "TypeError: NoneType is not iterable" :=
  ⟨rfl, rfl⟩

end Loopy
